import Mathlib

set_option maxRecDepth 8000

/-!
Verification of the Verse O Clock offline verse resolution and rendering
pipeline.  The definitions below are a shallow embedding of the core of the
firmware sketch (the single main source file of the repository): the
time-to-slot mapping, the three-file passage store and its lookup/decode
path, the greedy word-wrap layout engine, and the per-tick render loop with
its refresh-policy state.  Machine integers of the C code (int, uint16_t,
uint32_t) are modelled as Int/Nat; the value ranges relevant to the claims
never approach the overflow boundaries, and the embedding notes at each
definition which source lines it mirrors.
-/

namespace VerseOClock

/-- TOC record of toc.bin: struct TocEntry { uint32_t offset; uint16_t count; }. -/
structure TocEntry where
  offset : Nat
  count : Nat
deriving DecidableEq

/-- Entry record of entries.bin: struct VerseEntry with book/chapter/verse ids,
the byte offset of the compressed blob in texts.bin, the compressed length and
the decompressed (original) length. -/
structure VerseEntry where
  book_id : Nat
  chapter : Nat
  verse : Nat
  text_offset : Nat
  comp_len : Nat
  orig_len : Nat
deriving DecidableEq

/-- The in-memory state of the passage store after a successful load:
the TOC array (static TocEntry toc[SLOT_COUNT], loaded wholesale by loadToc),
the entry table file entries.bin (modelled record-wise, one VerseEntry per
14-byte record), and the raw byte blob file texts.bin (modelled byte-wise,
because the truncation claims are about byte-level short reads).
The length invariant records that the C array has exactly SLOT_COUNT = 23*59
= 1357 elements. -/
structure Store where
  toc : List TocEntry
  toc_size : toc.length = 1357
  entries : List VerseEntry
  texts : List UInt8

/-- Decoded passage output of loadVerse: the verse text plus its
(book, chapter, verse) reference. -/
structure VerseOut where
  text : List Char
  bookId : Nat
  chapter : Nat
  verse : Nat
deriving DecidableEq

/-- The distinct failure exits of loadVerse.  The C function returns a bare
false at each of these sites; the names follow the error taxonomy the spec
assigns to them (slot range guard, entry-table seek failure, entry short
read = CorruptEntry, text seek failure, text short read = CorruptText,
decompression error = DecodeFailure). -/
inductive LoadErr where
  | badSlot
  | seekEntryFail
  | corruptEntry
  | seekTextFail
  | corruptText
  | decodeFailure
deriving DecidableEq

/-- Result of one loadVerse call: a decoded passage, the empty-slot outcome
(te.count == 0, a normal non-error outcome), or one of the failure exits. -/
inductive LoadResult where
  | found (v : VerseOut)
  | noPassage
  | err (e : LoadErr)
deriving DecidableEq

/-- slotIndexFromTime (source lines 292-303): clamps hour to [1,23] and
minute to [1,59] (values at or below 0 are raised to 1, values above the
maximum are capped), then returns (hour-1)*59 + (minute-1). -/
def slotIndexFromTime (hour24 minute : Int) : Int :=
  let chap := if hour24 ≤ 0 then 1 else hour24
  let vs := if minute ≤ 0 then 1 else minute
  let chap2 := if chap > 23 then 23 else chap
  let vs2 := if vs > 59 then 59 else vs
  (chap2 - 1) * 59 + (vs2 - 1)

/-- The inverse mapping of the slot formula, written from the spec formula
slot = (hour-1)*59 + (minute-1): hour = slot/59 + 1, minute = slot%59 + 1. -/
def slotToTime (slot : Nat) : Int × Int :=
  ((slot / 59 : Nat) + 1, (slot % 59 : Nat) + 1)

/-- decodeUnishox (source lines 454-466), with the decompression transform
abstracted as a codec function (the Unishox2 library is external to the
repository; the spec fixes only that it is a deterministic stateless codec).
The C function allocates a buffer of origLen+1 bytes, decompresses into it,
writes a NUL terminator at index origLen, and builds an Arduino String from
the buffer, which copies bytes up to the first NUL.  The junk parameter
models the uninitialised contents of the malloc buffer beyond the bytes the
codec wrote (it is irrelevant whenever the codec emits exactly origLen
bytes).  Allocation failure (malloc returning NULL) is not modelled. -/
def decodeUnishox (codec : List UInt8 → Option (List Char)) (junk : List Char)
    (comp : List UInt8) (origLen : Nat) : Option (List Char) :=
  match codec comp with
  | none => none
  | some decoded =>
    some (((decoded ++ junk).take origLen).takeWhile (fun c => c != '\x00'))

/-- loadVerse (source lines 468-501): guard the slot range, read the TOC
record, return noPassage on count == 0, seek and read the single entry
record at index te.offset, seek and read comp_len bytes of texts.bin, then
decompress.  A seek beyond the end of a file fails; a read that returns
fewer bytes than requested fails. -/
def loadVerse (codec : List UInt8 → Option (List Char)) (junk : List Char)
    (st : Store) (slot : Int) : LoadResult :=
  if hs : slot < 0 ∨ 1357 ≤ slot then .err .badSlot
  else
    have hlt : slot.toNat < st.toc.length := by
      rw [st.toc_size]; omega
    let te := st.toc.get ⟨slot.toNat, hlt⟩
    if te.count = 0 then .noPassage
    else
      let idx := te.offset
      if st.entries.length < idx then .err .seekEntryFail
      else
        match st.entries.get? idx with
        | none => .err .corruptEntry
        | some ve =>
          if st.texts.length < ve.text_offset then .err .seekTextFail
          else if st.texts.length - ve.text_offset < ve.comp_len then .err .corruptText
          else
            let comp := (st.texts.drop ve.text_offset).take ve.comp_len
            match decodeUnishox codec junk comp ve.orig_len with
            | none => .err .decodeFailure
            | some text => .found ⟨text, ve.book_id, ve.chapter, ve.verse⟩

/-- Collapse a LoadResult to the bare boolean outcome the C caller sees
(loadVerse returns bool; outputs are written only on success). -/
def toOption : LoadResult → Option VerseOut
  | .found v => some v
  | _ => none

/-- The per-minute resolution policy of loop (source lines 1725-1738):
primary lookup at slotIndexFromTime(hour, minute); if it did not produce a
verse and hour > 12, one fallback lookup at slotIndexFromTime(hour-12,
minute). -/
def resolveVerse (codec : List UInt8 → Option (List Char)) (junk : List Char)
    (st : Store) (hour minute : Int) : Option VerseOut :=
  match toOption (loadVerse codec junk st (slotIndexFromTime hour minute)) with
  | some v => some v
  | none =>
    if 12 < hour then
      toOption (loadVerse codec junk st (slotIndexFromTime (hour - 12) minute))
    else none

end VerseOClock

namespace VerseOClock

/-- C4: for every hour24 in [1,23] and minute in [1,59], slotIndexFromTime
computes (hour24-1)*59 + (minute-1), lands in [0,1357), and the inverse
formula (slot/59 + 1, slot%59 + 1) recovers (hour24, minute) exactly;
conversely every slot in [0,1357) is hit by such a pair, so the map is a
bijection between [1,23] x [1,59] and [0,1357). -/
theorem mapToSlot_bijection :
    (∀ h m : Int, 1 ≤ h → h ≤ 23 → 1 ≤ m → m ≤ 59 →
      slotIndexFromTime h m = (h - 1) * 59 + (m - 1) ∧
      0 ≤ slotIndexFromTime h m ∧ slotIndexFromTime h m < 1357 ∧
      slotToTime (slotIndexFromTime h m).toNat = (h, m)) ∧
    (∀ s : Nat, s < 1357 →
      ∃ h m : Int, 1 ≤ h ∧ h ≤ 23 ∧ 1 ≤ m ∧ m ≤ 59 ∧
        slotIndexFromTime h m = s) := by
  constructor
  · intro h m h1 h2 h3 h4
    refine ⟨?_, ?_, ?_, ?_⟩ <;>
      first
        | (simp only [slotIndexFromTime]; split_ifs <;> omega)
        | (simp only [slotIndexFromTime, slotToTime]
           split_ifs <;> (refine Prod.ext ?_ ?_ <;> simp <;> omega))
  · intro s hs
    refine ⟨(s / 59 : Nat) + 1, (s % 59 : Nat) + 1, ?_, ?_, ?_, ?_, ?_⟩ <;>
      first
        | omega
        | (simp only [slotIndexFromTime]; split_ifs <;> omega)

/-- Witness for mapToSlot_bijection at the concrete time 03:16 and the
concrete slot 500. -/
theorem mapToSlot_bijection_witness :
    (slotIndexFromTime 3 16 = (3 - 1) * 59 + (16 - 1) ∧
      slotToTime (slotIndexFromTime 3 16).toNat = (3, 16)) ∧
    (∃ h m : Int, 1 ≤ h ∧ h ≤ 23 ∧ 1 ≤ m ∧ m ≤ 59 ∧
      slotIndexFromTime h m = (500 : Nat)) := by
  refine ⟨?_, mapToSlot_bijection.2 500 (by decide)⟩
  have h := mapToSlot_bijection.1 3 16 (by decide) (by decide) (by decide) (by decide)
  exact ⟨h.1, h.2.2.2⟩

/-- C10: slotIndexFromTime maps every integer input pair, including
negative values and values above 23 or 59, into [0,1357); and loadVerse
rejects any slot outside [0,1357) with its range-guard failure before
touching the TOC array, whose access in the embedding carries a proof that
the index is within the 1357-element array. -/
theorem slot_bounds_safety :
    (∀ hour minute : Int,
      0 ≤ slotIndexFromTime hour minute ∧ slotIndexFromTime hour minute < 1357) ∧
    (∀ codec junk st (slot : Int), slot < 0 ∨ 1357 ≤ slot →
      loadVerse codec junk st slot = .err .badSlot) := by
  constructor
  · intro h m
    constructor <;> (simp only [slotIndexFromTime]; split_ifs <;> omega)
  · intro codec junk st slot h
    unfold loadVerse
    rw [dif_pos h]

end VerseOClock

namespace VerseOClock

/-- Whitespace predicate of the C isspace used by Arduino String trim. -/
def isWs (c : Char) : Bool :=
  c == ' ' || c == '\t' || c == '\n' || c == '\x0b' || c == '\x0c' || c == '\r'

/-- Arduino String trim: remove leading and trailing whitespace. -/
def trimChars (s : List Char) : List Char :=
  ((s.dropWhile isWs).reverse.dropWhile isWs).reverse

/-- Arduino String substring(from, to): the characters at indices
from..to-1, clamped to the string. -/
def listSub (s : List Char) (a b : Nat) : List Char :=
  (s.drop a).take (b - a)

/-- Text width under glyph-advance font metrics: the sum of the per-glyph
advances.  This models the getTextBounds width measurement the wrap helper
uses, parametrised by the font advance table. -/
def measureWidth (adv : Char → Nat) (s : List Char) : Nat :=
  (s.map adv).sum

/-- The leading-space skip loop at the top of each wrapLines iteration
(source line 1139): while (start < s.length && s[start] == ' ') start++.
The fuel argument bounds the iteration count; the loop advances start by one
each step, so s.length - start steps always suffice. -/
def skipSpacesAux (s : List Char) : Nat → Nat → Nat
  | 0, i => i
  | fuel + 1, i =>
    if h : i < s.length then
      if s.get ⟨i, h⟩ = ' ' then skipSpacesAux s fuel (i + 1) else i
    else i

/-- Entry point of the leading-space skip loop with sufficient fuel. -/
def skipSpaces (s : List Char) (i : Nat) : Nat :=
  skipSpacesAux s (s.length - i) i

/-- The inner measuring loop of wrapLines (source lines 1142-1153): extend
endIdx while the candidate substring (start..endIdx inclusive) fits in
maxWidth, remembering the last space seen; stop on overflow or end of
input.  Returns the final (endIdx, lastSpace).  The loop advances endIdx by
one each step, so s.length - start steps always suffice as fuel. -/
def lineScanAux (w : List Char → Nat) (s : List Char) (maxWidth start : Nat) :
    Nat → Nat → Int → Nat × Int
  | 0, endIdx, lastSpace => (endIdx, lastSpace)
  | fuel + 1, endIdx, lastSpace =>
    if h : endIdx < s.length then
      let ls : Int := if s.get ⟨endIdx, h⟩ = ' ' then (endIdx : Int) else lastSpace
      if maxWidth < w (listSub s start (endIdx + 1)) then (endIdx, ls)
      else lineScanAux w s maxWidth start fuel (endIdx + 1) ls
    else (endIdx, lastSpace)

/-- Entry point of the measuring loop: endIdx = start, lastSpace = -1. -/
def lineScan (w : List Char → Nat) (s : List Char) (maxWidth start : Nat) :
    Nat × Int :=
  lineScanAux w s maxWidth start (s.length - start) start (-1)

/-- The ellipsis step of wrapLines (source lines 1175-1179): when input
remains after the loop, append "..." to the last produced line if the
result still fits the width budget. -/
def dotLast (w : List Char → Nat) (maxWidth : Nat) :
    List (List Char) → List (List Char)
  | [] => []
  | [l] =>
    if w (l ++ ['.', '.', '.']) ≤ maxWidth then [l ++ ['.', '.', '.']] else [l]
  | l :: ls => l :: dotLast w maxWidth ls

/-- The cut position chosen after the measuring loop (source lines
1155-1162): at end of input take the whole rest, else cut at the last
remembered space if one lies past the line start, else force a hard break
at the overflow point. -/
def cutOf (w : List Char → Nat) (s : List Char) (maxWidth start2 : Nat) : Nat :=
  if s.length ≤ (lineScan w s maxWidth start2).1 then s.length
  else if (start2 : Int) < (lineScan w s maxWidth start2).2 then
    (lineScan w s maxWidth start2).2.toNat
  else (lineScan w s maxWidth start2).1

/-- The main loop of wrapLines (source lines 1137-1172).  Each iteration:
skip leading spaces (break if input exhausted), run the measuring loop, cut
at end of input, else at the last remembered space past the line start,
else force a hard break at the overflow point, trim the cut line, break if
it is empty, store it, and continue after the cut (skipping the cut space).
Returns the produced lines and the final start position (which the caller
needs for the ellipsis condition).  Every recursive call stores exactly one
line and requires lines-so-far < maxLines, so maxLines steps of fuel always
suffice; when fuel runs out the stored-line count has reached maxLines and
the guard exit returns the same value. -/
def wrapLoopAux (w : List Char → Nat) (s : List Char) (maxWidth maxLines : Nat) :
    Nat → Nat → List (List Char) → List (List Char) × Nat
  | 0, start, acc => (acc, start)
  | fuel + 1, start, acc =>
    if start < s.length ∧ acc.length < maxLines then
      let start2 := skipSpaces s start
      if start2 < s.length then
        let cut := cutOf w s maxWidth start2
        let line := trimChars (listSub s start2 cut)
        if line = [] then (acc, start2)
        else
          let start' := if s.get? cut = some ' ' then cut + 1 else cut
          wrapLoopAux w s maxWidth maxLines fuel start' (acc ++ [line])
      else (acc, start2)
    else (acc, start)

/-- wrapLines (source lines 1127-1182): trim the input, return zero lines
if it is empty, run the greedy wrap loop producing at most maxLines lines,
and append the ellipsis to the last line when input remains and it fits. -/
def wrapLines (w : List Char → Nat) (sIn : List Char) (maxWidth maxLines : Nat) :
    List (List Char) :=
  let s := trimChars sIn
  if s = [] then []
  else
    let r := wrapLoopAux w s maxWidth maxLines maxLines 0 []
    if r.2 < s.length then dotLast w maxWidth r.1 else r.1

end VerseOClock

namespace VerseOClock

/-- The repaint request renderHomeScreen issues before drawing (source
lines 1089-1090): display.setFullWindow() on the first render, and
display.setPartialWindow(x, y, w, h) afterwards. -/
inductive RefreshReq where
  | fullWindow
  | windowRect (x y w h : Nat)
deriving DecidableEq

/-- What the verse zone of the frame shows (source lines 1216-1227): the
not-ready diagnostic when the filesystem failed at boot, the fixed
no-verse message when the passed verse text is empty, or the passage. -/
inductive ZoneB where
  | notReady
  | noPassage
  | passage (text : List Char) (bookId chapter verse : Nat)
deriving DecidableEq

/-- One committed panel paint: the repaint technique requested and the
verse-zone content.  The time, date and status-bar content of the real
frame are not modelled; no claim depends on them. -/
structure RenderAction where
  refresh : RefreshReq
  zoneB : ZoneB
deriving DecidableEq

/-- The mutable loop state the render path touches: lastRenderedMinute
(initially -1, source line 132) and the primed flag didFirstFullRefresh
(initially false, source line 131). -/
structure ClockState where
  lastRenderedMinute : Int
  didFirstFullRefresh : Bool
deriving DecidableEq

/-- Boot-time values of the loop state. -/
def initState : ClockState := ⟨-1, false⟩

/-- renderHomeScreen (source lines 1076-1314), reduced to the observables
the claims are about: the refresh request chosen from the primed flag
(lines 1089-1090, partial over the full frame rectangle 0,0,W,H) and the
verse-zone branch (lines 1216-1227). -/
def renderHomeScreen (W H : Nat) (primed fsOk : Bool)
    (verseText : List Char) (bookId chapter verse : Nat) : RenderAction :=
  { refresh := if primed then .windowRect 0 0 W H else .fullWindow
    zoneB :=
      if !fsOk then .notReady
      else if verseText.length = 0 then .noPassage
      else .passage verseText bookId chapter verse }

/-- The per-tick render tail of loop (source lines 1716-1740): return
without painting when the minute equals lastRenderedMinute; otherwise
record the minute, resolve the verse when the filesystem is ready (with
the 12-hour fallback, resolveVerse), call renderHomeScreen with the verse
text on success and the empty string with zeroed reference on failure, and
set didFirstFullRefresh after the completed render (source line 1313). -/
def loopStep (codec : List UInt8 → Option (List Char)) (junk : List Char)
    (fsOk : Bool) (st : Store) (W H : Nat) (s : ClockState)
    (hour minute : Int) : ClockState × Option RenderAction :=
  if minute = s.lastRenderedMinute then (s, none)
  else
    match (if fsOk then resolveVerse codec junk st hour minute else none) with
    | some v =>
      (⟨minute, true⟩,
        some (renderHomeScreen W H s.didFirstFullRefresh fsOk
          v.text v.bookId v.chapter v.verse))
    | none =>
      (⟨minute, true⟩,
        some (renderHomeScreen W H s.didFirstFullRefresh fsOk [] 0 0 0))

/-- Iterate loopStep over a sequence of observed wall-clock times,
collecting the panel paints in order. -/
def runTicks (codec : List UInt8 → Option (List Char)) (junk : List Char)
    (fsOk : Bool) (st : Store) (W H : Nat) :
    ClockState → List (Int × Int) → ClockState × List RenderAction
  | s, [] => (s, [])
  | s, (h, m) :: rest =>
    match loopStep codec junk fsOk st W H s h m with
    | (s', none) => runTicks codec junk fsOk st W H s' rest
    | (s', some a) =>
      let r := runTicks codec junk fsOk st W H s' rest
      (r.1, a :: r.2)

end VerseOClock

namespace VerseOClock

theorem measureWidth_sublist {adv : Char → Nat} {a b : List Char}
    (h : List.Sublist a b) : measureWidth adv a ≤ measureWidth adv b := by
  induction h with
  | slnil => simp [measureWidth]
  | cons x h2 ih => simp only [measureWidth, List.map_cons, List.sum_cons] at *; omega
  | cons₂ x h2 ih => simp only [measureWidth, List.map_cons, List.sum_cons] at *; omega

theorem trimChars_sublist (s : List Char) : List.Sublist (trimChars s) s := by
  unfold trimChars
  have h1 : List.Sublist (s.dropWhile isWs) s := (List.dropWhile_suffix _).sublist
  have h2 : List.Sublist ((s.dropWhile isWs).reverse.dropWhile isWs)
      (s.dropWhile isWs).reverse := (List.dropWhile_suffix _).sublist
  have h3 := h2.reverse
  rw [List.reverse_reverse] at h3
  exact h3.trans h1

theorem head_dropWhile_false (p : Char → Bool) :
    ∀ (s : List Char) (c : Char), (s.dropWhile p).head? = some c → p c = false := by
  intro s
  induction s with
  | nil => intro c h; simp [List.dropWhile] at h
  | cons a l ih =>
    intro c h
    rw [List.dropWhile_cons] at h
    by_cases hp : p a
    · rw [if_pos hp] at h; exact ih c h
    · rw [if_neg hp] at h
      simp at h
      subst h
      simpa using hp

theorem trimChars_head (s : List Char) (c : Char)
    (h : (trimChars s).head? = some c) : isWs c = false := by
  obtain ⟨pre, hpre⟩ := List.dropWhile_suffix (l := (s.dropWhile isWs).reverse) isWs
  have hsplit : s.dropWhile isWs = trimChars s ++ pre.reverse := by
    have h4 := congrArg List.reverse hpre
    rw [List.reverse_append, List.reverse_reverse] at h4
    rw [← h4]; rfl
  apply head_dropWhile_false isWs s c
  rw [hsplit, List.head?_append_of_ne_nil]
  · exact h
  · intro hnil; rw [hnil] at h; simp at h

theorem listSub_prefix_mono (s : List Char) (a : Nat) {b1 b2 : Nat} (h : b1 ≤ b2) :
    List.IsPrefix (listSub s a b1) (listSub s a b2) := by
  unfold listSub
  have h2 := List.take_prefix (b1 - a) ((s.drop a).take (b2 - a))
  rw [List.take_take, min_eq_left (by omega)] at h2
  exact h2

end VerseOClock

namespace VerseOClock

theorem lineScanAux_inv (w : List Char → Nat) (s : List Char) (maxWidth start : Nat) :
    ∀ (fuel endIdx : Nat) (lastSpace : Int),
      start ≤ endIdx → endIdx ≤ s.length → lastSpace ≤ (endIdx : Int) →
      (endIdx = start ∨ w (listSub s start endIdx) ≤ maxWidth) →
      start ≤ (lineScanAux w s maxWidth start fuel endIdx lastSpace).1 ∧
      (lineScanAux w s maxWidth start fuel endIdx lastSpace).1 ≤ s.length ∧
      (lineScanAux w s maxWidth start fuel endIdx lastSpace).2 ≤
        ((lineScanAux w s maxWidth start fuel endIdx lastSpace).1 : Int) ∧
      ((lineScanAux w s maxWidth start fuel endIdx lastSpace).1 = start ∨
        w (listSub s start (lineScanAux w s maxWidth start fuel endIdx lastSpace).1)
          ≤ maxWidth) := by
  intro fuel
  induction fuel with
  | zero =>
    intro endIdx lastSpace h1 h2 h3 h4
    simpa [lineScanAux] using ⟨h1, h2, h3, h4⟩
  | succ n ih =>
    intro endIdx lastSpace h1 h2 h3 h4
    simp only [lineScanAux]
    split
    case isTrue hlt =>
      split
      case isTrue hov =>
        refine ⟨h1, h2, ?_, h4⟩
        simp only
        split <;> omega
      case isFalse hov =>
        apply ih (endIdx + 1)
        · omega
        · omega
        · split <;> omega
        · right; omega
    case isFalse hlt =>
      exact ⟨h1, h2, h3, h4⟩

end VerseOClock

namespace VerseOClock

theorem trimChars_nil : trimChars [] = [] := rfl

theorem cutOf_fit (w : List Char → Nat)
    (hmono : ∀ a b : List Char, List.Sublist a b → w a ≤ w b)
    (s : List Char) (maxWidth start2 : Nat) (h2 : start2 < s.length)
    (hne : trimChars (listSub s start2 (cutOf w s maxWidth start2)) ≠ []) :
    w (trimChars (listSub s start2 (cutOf w s maxWidth start2))) ≤ maxWidth := by
  have hinv := lineScanAux_inv w s maxWidth start2 (s.length - start2) start2 (-1)
    (le_refl start2) (le_of_lt h2) (by omega) (Or.inl rfl)
  set r := lineScanAux w s maxWidth start2 (s.length - start2) start2 (-1) with hr
  have hfit : w (listSub s start2 (cutOf w s maxWidth start2)) ≤ maxWidth := by
    unfold cutOf lineScan
    rw [← hr]
    split
    case isTrue hend =>
      have he : r.1 = s.length := by omega
      rcases hinv.2.2.2 with heq | hw
      · omega
      · rw [← he]; exact hw
    case isFalse hend =>
      split
      case isTrue hsp =>
        rcases hinv.2.2.2 with heq | hw
        · exfalso; omega
        · have hle : r.2.toNat ≤ r.1 := by omega
          exact le_trans
            (hmono _ _ ((listSub_prefix_mono s start2 hle).sublist)) hw
      case isFalse hsp =>
        rcases hinv.2.2.2 with heq | hw
        · -- r.1 = start2: the cut line is empty, contradicting hne
          exfalso
          apply hne
          unfold cutOf lineScan
          rw [← hr]
          rw [if_neg hend, if_neg hsp, heq]
          have : listSub s start2 start2 = [] := by
            unfold listSub
            simp
          rw [this, trimChars_nil]
        · exact hw
  exact le_trans (hmono _ _ (trimChars_sublist _)) hfit

end VerseOClock

namespace VerseOClock

theorem wrapLoopAux_mem (w : List Char → Nat) (s : List Char)
    (maxWidth maxLines : Nat) (P : List Char → Prop)
    (hP : ∀ start2, start2 < s.length →
      trimChars (listSub s start2 (cutOf w s maxWidth start2)) ≠ [] →
      P (trimChars (listSub s start2 (cutOf w s maxWidth start2)))) :
    ∀ (fuel start : Nat) (acc : List (List Char)), (∀ l ∈ acc, P l) →
      ∀ l ∈ (wrapLoopAux w s maxWidth maxLines fuel start acc).1, P l := by
  intro fuel
  induction fuel with
  | zero => intro start acc hacc; simpa [wrapLoopAux] using hacc
  | succ n ih =>
    intro start acc hacc
    simp only [wrapLoopAux]
    split
    case isTrue hg =>
      split
      case isTrue hs2 =>
        split
        case isTrue hnil => simpa using hacc
        case isFalse hnil =>
          apply ih
          intro l hl
          rw [List.mem_append] at hl
          rcases hl with hl | hl
          · exact hacc l hl
          · rw [List.mem_singleton] at hl
            subst hl
            exact hP _ hs2 hnil
      case isFalse hs2 => simpa using hacc
    case isFalse hg => simpa using hacc

theorem wrapLoopAux_length (w : List Char → Nat) (s : List Char)
    (maxWidth maxLines : Nat) :
    ∀ (fuel start : Nat) (acc : List (List Char)),
      (wrapLoopAux w s maxWidth maxLines fuel start acc).1.length ≤
        max acc.length maxLines := by
  intro fuel
  induction fuel with
  | zero => intro start acc; simp [wrapLoopAux]
  | succ n ih =>
    intro start acc
    simp only [wrapLoopAux]
    split
    case isTrue hg =>
      split
      case isTrue hs2 =>
        split
        case isTrue hnil => simp
        case isFalse hnil =>
          have h2 := ih (if s.get? (cutOf w s maxWidth (skipSpaces s start)) = some ' '
              then cutOf w s maxWidth (skipSpaces s start) + 1
              else cutOf w s maxWidth (skipSpaces s start))
            (acc ++ [trimChars (listSub s (skipSpaces s start)
              (cutOf w s maxWidth (skipSpaces s start)))])
          rw [List.length_append, List.length_singleton] at h2
          have hlt : acc.length < maxLines := hg.2
          omega
      case isFalse hs2 => simp
    case isFalse hg => simp

theorem dotLast_mem (w : List Char → Nat) (maxWidth : Nat) :
    ∀ (L : List (List Char)) (l : List Char), l ∈ dotLast w maxWidth L →
      l ∈ L ∨ ∃ l0, l0 ∈ L ∧ l = l0 ++ ['.', '.', '.'] ∧ w l ≤ maxWidth := by
  intro L
  induction L with
  | nil => intro l hl; simp [dotLast] at hl
  | cons hd tl ih =>
    intro l hl
    cases tl with
    | nil =>
      simp only [dotLast] at hl
      split at hl
      case isTrue hfit =>
        rw [List.mem_singleton] at hl
        subst hl
        exact Or.inr ⟨hd, by simp, rfl, hfit⟩
      case isFalse hfit =>
        rw [List.mem_singleton] at hl
        subst hl
        exact Or.inl (by simp)
    | cons h2 t2 =>
      simp only [dotLast] at hl
      rw [List.mem_cons] at hl
      rcases hl with hl | hl
      · exact Or.inl (by simp [hl])
      · rcases ih l hl with h | ⟨l0, hl0, he, hw⟩
        · exact Or.inl (by simp [h])
        · exact Or.inr ⟨l0, by simp [hl0], he, hw⟩

theorem dotLast_length (w : List Char → Nat) (maxWidth : Nat) :
    ∀ L : List (List Char), (dotLast w maxWidth L).length = L.length := by
  intro L
  induction L with
  | nil => simp [dotLast]
  | cons hd tl ih =>
    cases tl with
    | nil => simp only [dotLast]; split <;> simp
    | cons h2 t2 => simp only [dotLast, List.length_cons] at *; omega

end VerseOClock

namespace VerseOClock

/-- C5: wrap returns at most maxLines lines, and every returned line,
measured with the glyph-advance metrics of the given font advance table,
fits in the width budget, including the final line after the ellipsis
step. -/
theorem wrap_bounds (adv : Char → Nat) (text : List Char) (W N : Nat) :
    (wrapLines (measureWidth adv) text W N).length ≤ N ∧
    ∀ l ∈ wrapLines (measureWidth adv) text W N, measureWidth adv l ≤ W := by
  have hmono : ∀ a b : List Char, List.Sublist a b →
      measureWidth adv a ≤ measureWidth adv b := fun a b h => measureWidth_sublist h
  simp only [wrapLines]
  split
  case isTrue h => simp
  case isFalse h =>
    have hlen := wrapLoopAux_length (measureWidth adv) (trimChars text) W N N 0 []
    have hmem := wrapLoopAux_mem (measureWidth adv) (trimChars text) W N
      (fun l => measureWidth adv l ≤ W)
      (fun start2 hs2 hne => cutOf_fit (measureWidth adv) hmono (trimChars text) W
        start2 hs2 hne)
      N 0 [] (by simp)
    split
    case isTrue h2 =>
      constructor
      · rw [dotLast_length]
        simpa using hlen
      · intro l hl
        rcases dotLast_mem _ _ _ l hl with hl | ⟨l0, hl0, he, hw⟩
        · exact hmem l hl
        · exact hw
    case isFalse h2 =>
      exact ⟨by simpa using hlen, hmem⟩

/-- C6: wrap of the empty string returns zero lines for any width budget,
line limit and font; and for any input no returned line is empty or
starts with a space (leading spaces are skipped at each line start and
each stored line is trimmed). -/
theorem wrap_empty_and_lines (w : List Char → Nat) (W N : Nat) (text : List Char) :
    wrapLines w [] W N = [] ∧
    ∀ l ∈ wrapLines w text W N, l ≠ [] ∧ l.head? ≠ some ' ' := by
  constructor
  · rfl
  · have hP : ∀ start2, start2 < (trimChars text).length →
        trimChars (listSub (trimChars text) start2
          (cutOf w (trimChars text) W start2)) ≠ [] →
        (trimChars (listSub (trimChars text) start2
            (cutOf w (trimChars text) W start2)) ≠ [] ∧
          (trimChars (listSub (trimChars text) start2
            (cutOf w (trimChars text) W start2))).head? ≠ some ' ') := by
      intro start2 hs2 hne
      refine ⟨hne, fun hc => ?_⟩
      have hws := trimChars_head _ _ hc
      simp [isWs] at hws
    simp only [wrapLines]
    split
    case isTrue h => simp
    case isFalse h =>
      have hmem := wrapLoopAux_mem w (trimChars text) W N
        (fun l => l ≠ [] ∧ l.head? ≠ some ' ') hP N 0 [] (by simp)
      split
      case isTrue h2 =>
        intro l hl
        rcases dotLast_mem _ _ _ l hl with hl | ⟨l0, hl0, he, _⟩
        · exact hmem l hl
        · have h0 := hmem l0 hl0
          subst he
          refine ⟨by simp, ?_⟩
          rw [List.head?_append_of_ne_nil _ h0.1]
          exact h0.2
      case isFalse h2 =>
        exact hmem

/-- Witness for wrap_bounds: a concrete unit-advance font, text and
budget; the wrapped output has at most 2 lines and its first line fits
the budget of 3. -/
theorem wrap_bounds_witness :
    (wrapLines (measureWidth (fun _ => 1)) ['a', 'b', ' ', 'c', 'd', 'e'] 3 2).length ≤ 2 ∧
    measureWidth (fun _ => 1) ['a', 'b'] ≤ 3 :=
  ⟨(wrap_bounds (fun _ => 1) ['a', 'b', ' ', 'c', 'd', 'e'] 3 2).1,
    (wrap_bounds (fun _ => 1) ['a', 'b', ' ', 'c', 'd', 'e'] 3 2).2 ['a', 'b'] (by decide)⟩

/-- Witness for wrap_empty_and_lines: the empty input wraps to zero lines
and a concrete wrapped line is nonempty and does not start with a space. -/
theorem wrap_empty_and_lines_witness :
    wrapLines (measureWidth (fun _ => 1)) [] 5 4 = [] ∧
    (['a', 'b'] ≠ ([] : List Char) ∧ (['a', 'b'] : List Char).head? ≠ some ' ') :=
  ⟨(wrap_empty_and_lines (measureWidth (fun _ => 1)) 5 4 [' ', 'x']).1,
    (wrap_empty_and_lines (measureWidth (fun _ => 1)) 3 2
      ['a', 'b', ' ', 'c', 'd', 'e']).2 ['a', 'b'] (by decide)⟩

end VerseOClock

namespace VerseOClock

/-- C3: the 12-hour fallback policy of the per-minute resolution.  When
the primary lookup returns the empty-slot outcome and hour24 > 12, the
resolution returns exactly the result of the single fallback lookup at
slotIndexFromTime(hour24-12, minute); when hour24 is at most 12 the
resolution is exactly the primary lookup, so the fallback is never
attempted. -/
theorem resolve_fallback_policy (codec : List UInt8 → Option (List Char))
    (junk : List Char) (st : Store) (hour minute : Int) :
    (12 < hour →
      loadVerse codec junk st (slotIndexFromTime hour minute) = .noPassage →
      resolveVerse codec junk st hour minute =
        toOption (loadVerse codec junk st (slotIndexFromTime (hour - 12) minute))) ∧
    (hour ≤ 12 →
      resolveVerse codec junk st hour minute =
        toOption (loadVerse codec junk st (slotIndexFromTime hour minute))) := by
  constructor
  · intro h12 hnp
    unfold resolveVerse
    rw [hnp]
    simp only [toOption]
    rw [if_pos h12]
  · intro hle
    unfold resolveVerse
    cases hl : loadVerse codec junk st (slotIndexFromTime hour minute) with
    | found v => simp [toOption]
    | noPassage =>
      simp only [toOption]
      rw [if_neg (by omega)]
    | err e =>
      simp only [toOption]
      rw [if_neg (by omega)]

/-- A sample codec for the concrete witnesses: ignores the compressed
bytes and always emits the two characters Hi. -/
def sampleCodec : List UInt8 → Option (List Char) := fun _ => some ['H', 'i']

/-- Witness store for the fallback policy: slot 914 (time 16:30) has
count 0 while slot 206 (time 4:30) points at one entry whose blob
decodes to Hi. -/
def stFallback : Store :=
  ⟨(List.replicate 1357 ⟨0, 0⟩).set 206 ⟨0, 1⟩, by simp,
    [⟨43, 3, 16, 0, 3, 2⟩], [1, 2, 3]⟩

/-- Witness for resolve_fallback_policy: at 16:30 the primary slot is
empty and resolution returns the 4:30 passage; at 4:30 the resolution is
the primary lookup itself. -/
theorem resolve_fallback_policy_witness :
    resolveVerse sampleCodec [] stFallback 16 30 = some ⟨['H', 'i'], 43, 3, 16⟩ ∧
    resolveVerse sampleCodec [] stFallback 4 30 =
      toOption (loadVerse sampleCodec [] stFallback (slotIndexFromTime 4 30)) := by
  constructor
  · have h1 := (resolve_fallback_policy sampleCodec [] stFallback 16 30).1
      (by decide) (by decide)
    rw [h1]
    decide
  · exact (resolve_fallback_policy sampleCodec [] stFallback 4 30).2 (by decide)

end VerseOClock

namespace VerseOClock

/-- Unfolding of loadVerse at an in-range slot whose TOC record is known. -/
theorem loadVerse_eq (codec : List UInt8 → Option (List Char)) (junk : List Char)
    (st : Store) (slot : Int) (te : TocEntry)
    (h0 : 0 ≤ slot) (h1 : slot < 1357) (hte : st.toc.get? slot.toNat = some te) :
    loadVerse codec junk st slot =
      (if te.count = 0 then .noPassage
       else if st.entries.length < te.offset then .err .seekEntryFail
       else
         match st.entries.get? te.offset with
         | none => .err .corruptEntry
         | some ve =>
           if st.texts.length < ve.text_offset then .err .seekTextFail
           else if st.texts.length - ve.text_offset < ve.comp_len then .err .corruptText
           else
             match decodeUnishox codec junk
                 ((st.texts.drop ve.text_offset).take ve.comp_len) ve.orig_len with
             | none => .err .decodeFailure
             | some text => .found ⟨text, ve.book_id, ve.chapter, ve.verse⟩) := by
  unfold loadVerse
  rw [dif_neg (by omega : ¬(slot < 0 ∨ (1357 : Int) ≤ slot))]
  have hlt : slot.toNat < st.toc.length := by rw [st.toc_size]; omega
  have hget : st.toc.get ⟨slot.toNat, hlt⟩ = te := by
    have h2 := List.get?_eq_get hlt
    rw [hte] at h2
    exact Option.some_inj.mp h2.symm
  simp only [hget]

end VerseOClock

namespace VerseOClock

/-- C7: a slot whose TOC record has count 0 resolves to the empty-slot
outcome (not an error); and when count is positive the lookup reads only
the single entry record at index te.offset, so its result is unchanged
under any modification of the store that preserves that one entry record,
the entry-table length, the text blob, the first-entry index and the
positivity of the count: in particular it is independent of the value of
entryCount and of any additional entries it references. -/
theorem lookup_first_entry_only (codec : List UInt8 → Option (List Char))
    (junk : List Char) (st : Store) (slot : Int) (te : TocEntry)
    (h0 : 0 ≤ slot) (h1 : slot < 1357) (hte : st.toc.get? slot.toNat = some te) :
    (te.count = 0 → loadVerse codec junk st slot = .noPassage) ∧
    (∀ (st2 : Store) (te2 : TocEntry), st2.toc.get? slot.toNat = some te2 →
      te2.offset = te.offset → te.count ≠ 0 → te2.count ≠ 0 →
      st2.entries.length = st.entries.length →
      st2.entries.get? te.offset = st.entries.get? te.offset →
      st2.texts = st.texts →
      loadVerse codec junk st2 slot = loadVerse codec junk st slot) := by
  constructor
  · intro hc
    rw [loadVerse_eq codec junk st slot te h0 h1 hte, if_pos hc]
  · intro st2 te2 hte2 hoff hc hc2 hlen hget htexts
    rw [loadVerse_eq codec junk st2 slot te2 h0 h1 hte2,
      loadVerse_eq codec junk st slot te h0 h1 hte,
      hoff, hlen, hget, htexts, if_neg hc2, if_neg hc]

/-- Witness store with a populated slot 0 and a second, unused entry. -/
def stTwoEntries : Store :=
  ⟨List.replicate 1357 ⟨0, 1⟩, by simp,
    [⟨43, 3, 16, 0, 3, 2⟩, ⟨1, 1, 1, 0, 1, 1⟩], [1, 2, 3]⟩

/-- The same store with the slot-0 count raised to 7 and a different
second entry: the lookup result is unchanged. -/
def stTwoEntriesVariant : Store :=
  ⟨List.replicate 1357 ⟨0, 7⟩, by simp,
    [⟨43, 3, 16, 0, 3, 2⟩, ⟨2, 2, 2, 1, 1, 1⟩], [1, 2, 3]⟩

/-- Witness store whose TOC records all have count 0. -/
def stAllEmpty : Store :=
  ⟨List.replicate 1357 ⟨0, 0⟩, by simp, [], []⟩

/-- Witness for lookup_first_entry_only: count 0 gives the empty-slot
outcome at slot 5, and at slot 5 the two-entry store and its
count-7/different-second-entry variant give the same lookup result. -/
theorem lookup_first_entry_only_witness :
    loadVerse sampleCodec [] stAllEmpty 5 = .noPassage ∧
    loadVerse sampleCodec [] stTwoEntriesVariant 5 =
      loadVerse sampleCodec [] stTwoEntries 5 := by
  constructor
  · exact (lookup_first_entry_only sampleCodec [] stAllEmpty 5 ⟨0, 0⟩
      (by decide) (by decide) (by decide)).1 (by decide)
  · exact (lookup_first_entry_only sampleCodec [] stTwoEntries 5 ⟨0, 1⟩
      (by decide) (by decide) (by decide)).2 stTwoEntriesVariant ⟨0, 7⟩
      (by decide) (by decide) (by decide) (by decide) (by decide) (by decide) (by decide)

end VerseOClock

namespace VerseOClock

/-- C1: when the codec succeeds on the blob and emits exactly origLen
NUL-free characters (the contract of a valid compressed input, whose blob
decodes deterministically to exactly decodedLength bytes of text), decode
returns exactly those origLen characters and never a partial string; and
a truncated text blob (fewer than compressedLength bytes available at
textOffset) makes loadVerse fail at the short-read check with the
CorruptText exit, before any decode, so no partial string is produced. -/
theorem decode_exact_and_truncated :
    (∀ (codec : List UInt8 → Option (List Char)) (junk : List Char)
        (comp : List UInt8) (origLen : Nat) (decoded : List Char),
      codec comp = some decoded → decoded.length = origLen →
      (∀ c ∈ decoded, c ≠ '\x00') →
      decodeUnishox codec junk comp origLen = some decoded ∧
        decoded.length = origLen) ∧
    (∀ (codec : List UInt8 → Option (List Char)) (junk : List Char)
        (st : Store) (slot : Int) (te : TocEntry) (ve : VerseEntry),
      0 ≤ slot → slot < 1357 →
      st.toc.get? slot.toNat = some te → te.count ≠ 0 →
      st.entries.get? te.offset = some ve →
      ve.text_offset ≤ st.texts.length →
      st.texts.length - ve.text_offset < ve.comp_len →
      loadVerse codec junk st slot = .err .corruptText) := by
  constructor
  · intro codec junk comp origLen decoded hc hlen hnul
    refine ⟨?_, hlen⟩
    have htake : (decoded ++ junk).take origLen = decoded := by
      rw [← hlen]
      exact List.take_left decoded junk
    simp only [decodeUnishox, hc, htake]
    congr 1
    rw [List.takeWhile_eq_self_iff]
    intro c hcmem
    simpa using hnul c hcmem
  · intro codec junk st slot te ve h0 h1 hte hc hve hofs hshort
    rw [loadVerse_eq codec junk st slot te h0 h1 hte, if_neg hc]
    obtain ⟨hlt2, _⟩ := List.get?_eq_some.mp hve
    rw [if_neg (by omega), hve]
    simp only []
    rw [if_neg (by omega), if_pos hshort]

/-- Witness store whose only entry asks for 5 blob bytes at offset 0 of a
2-byte text file: a truncated blob. -/
def stTruncated : Store :=
  ⟨List.replicate 1357 ⟨0, 1⟩, by simp, [⟨1, 1, 1, 0, 5, 10⟩], [65, 66]⟩

/-- Witness for decode_exact_and_truncated: the sample codec output Hi of
length 2 is returned exactly, and the truncated store fails with the
CorruptText exit at slot 3. -/
theorem decode_exact_and_truncated_witness :
    decodeUnishox sampleCodec ['Z'] [9] 2 = some ['H', 'i'] ∧
    loadVerse sampleCodec [] stTruncated 3 = .err .corruptText := by
  constructor
  · exact (decode_exact_and_truncated.1 sampleCodec ['Z'] [9] 2 ['H', 'i']
      (by decide) (by decide) (by decide)).1
  · exact decode_exact_and_truncated.2 sampleCodec [] stTruncated 3 ⟨0, 1⟩
      ⟨1, 1, 1, 0, 5, 10⟩ (by decide) (by decide) (by decide) (by decide)
      (by decide) (by decide) (by decide)

end VerseOClock

namespace VerseOClock

/-- A tick whose minute equals lastRenderedMinute neither paints nor
changes the state. -/
theorem loopStep_same_minute (codec : List UInt8 → Option (List Char))
    (junk : List Char) (fsOk : Bool) (st : Store) (W H : Nat)
    (s : ClockState) (hour minute : Int)
    (hm : minute = s.lastRenderedMinute) :
    loopStep codec junk fsOk st W H s hour minute = (s, none) := by
  unfold loopStep
  rw [if_pos hm]

/-- A tick with a fresh minute paints exactly once and moves the state to
(minute, primed). -/
theorem loopStep_new_minute (codec : List UInt8 → Option (List Char))
    (junk : List Char) (fsOk : Bool) (st : Store) (W H : Nat)
    (s : ClockState) (hour minute : Int)
    (hm : minute ≠ s.lastRenderedMinute) :
    ∃ a, loopStep codec junk fsOk st W H s hour minute = (⟨minute, true⟩, some a) := by
  unfold loopStep
  rw [if_neg hm]
  cases (if fsOk then resolveVerse codec junk st hour minute else none) with
  | none => exact ⟨_, rfl⟩
  | some v => exact ⟨_, rfl⟩

end VerseOClock

namespace VerseOClock

/-- C9: an edge trigger on the minute value.  Starting from any state and
a fresh minute m, ticking twice with the same minute produces exactly one
panel paint, and a third tick with a changed minute value produces
exactly one more. -/
theorem render_once_per_minute (codec : List UInt8 → Option (List Char))
    (junk : List Char) (fsOk : Bool) (st : Store) (W H : Nat)
    (s : ClockState) (h1 h2 h3 m m2 : Int)
    (hm : m ≠ s.lastRenderedMinute) (hm2 : m2 ≠ m) :
    (runTicks codec junk fsOk st W H s [(h1, m), (h2, m)]).2.length = 1 ∧
    (runTicks codec junk fsOk st W H s [(h1, m), (h2, m), (h3, m2)]).2.length = 2 := by
  obtain ⟨a1, ha1⟩ := loopStep_new_minute codec junk fsOk st W H s h1 m hm
  have hsame : loopStep codec junk fsOk st W H ⟨m, true⟩ h2 m = (⟨m, true⟩, none) :=
    loopStep_same_minute codec junk fsOk st W H ⟨m, true⟩ h2 m rfl
  obtain ⟨a3, ha3⟩ := loopStep_new_minute codec junk fsOk st W H ⟨m, true⟩ h3 m2 hm2
  constructor
  · simp [runTicks, ha1, hsame]
  · simp [runTicks, ha1, hsame, ha3]

/-- Witness for render_once_per_minute at a concrete state and times. -/
theorem render_once_per_minute_witness :
    (runTicks sampleCodec [] false stAllEmpty 800 480 initState
      [(3, 16), (3, 16)]).2.length = 1 ∧
    (runTicks sampleCodec [] false stAllEmpty 800 480 initState
      [(3, 16), (3, 16), (3, 17)]).2.length = 2 :=
  render_once_per_minute sampleCodec [] false stAllEmpty 800 480 initState
    3 3 3 16 17 (by decide) (by decide)

end VerseOClock

namespace VerseOClock

/-- A tick that paints reports the refresh technique chosen from the
primed flag at render time. -/
theorem loopStep_paint_refresh (codec : List UInt8 → Option (List Char))
    (junk : List Char) (fsOk : Bool) (st : Store) (W H : Nat)
    (s : ClockState) (hour minute : Int) (a : RenderAction)
    (ha : (loopStep codec junk fsOk st W H s hour minute).2 = some a) :
    a.refresh = (if s.didFirstFullRefresh then RefreshReq.windowRect 0 0 W H
      else RefreshReq.fullWindow) := by
  by_cases hm : minute = s.lastRenderedMinute
  · rw [loopStep_same_minute codec junk fsOk st W H s hour minute hm] at ha
    simp at ha
  · unfold loopStep at ha
    rw [if_neg hm] at ha
    cases hr : (if fsOk then resolveVerse codec junk st hour minute else none) with
    | none =>
      rw [hr] at ha
      simp only [Option.some_inj] at ha
      rw [← ha]
      simp [renderHomeScreen]
    | some v =>
      rw [hr] at ha
      simp only [Option.some_inj] at ha
      rw [← ha]
      simp [renderHomeScreen]

/-- A tick starting from a primed state leaves the state primed. -/
theorem loopStep_primed_mono (codec : List UInt8 → Option (List Char))
    (junk : List Char) (fsOk : Bool) (st : Store) (W H : Nat)
    (s : ClockState) (hour minute : Int)
    (hs : s.didFirstFullRefresh = true) :
    (loopStep codec junk fsOk st W H s hour minute).1.didFirstFullRefresh = true := by
  by_cases hm : minute = s.lastRenderedMinute
  · rw [loopStep_same_minute codec junk fsOk st W H s hour minute hm]
    exact hs
  · obtain ⟨a, ha⟩ := loopStep_new_minute codec junk fsOk st W H s hour minute hm
    rw [ha]

end VerseOClock

namespace VerseOClock

/-- C8: the primed flag (didFirstFullRefresh) is false at boot; every
tick that paints while it is false requests the full-panel repaint and
every tick that paints while it is true requests the partial-repaint
technique over the full frame rectangle; the flag is true after any tick
that completed a render; a tick that does not render leaves the state
untouched; and once the flag is true it stays true over any further
sequence of ticks (it is never reset without a reboot). -/
theorem primed_refresh_policy :
    initState.didFirstFullRefresh = false ∧
    (∀ (codec : List UInt8 → Option (List Char)) (junk : List Char)
        (fsOk : Bool) (st : Store) (W H : Nat) (s : ClockState)
        (hour minute : Int) (a : RenderAction),
      (loopStep codec junk fsOk st W H s hour minute).2 = some a →
      a.refresh = (if s.didFirstFullRefresh then RefreshReq.windowRect 0 0 W H
        else RefreshReq.fullWindow) ∧
      (loopStep codec junk fsOk st W H s hour minute).1.didFirstFullRefresh = true) ∧
    (∀ (codec : List UInt8 → Option (List Char)) (junk : List Char)
        (fsOk : Bool) (st : Store) (W H : Nat) (s : ClockState)
        (hour minute : Int),
      (loopStep codec junk fsOk st W H s hour minute).2 = none →
      (loopStep codec junk fsOk st W H s hour minute).1 = s) ∧
    (∀ (codec : List UInt8 → Option (List Char)) (junk : List Char)
        (fsOk : Bool) (st : Store) (W H : Nat) (s : ClockState)
        (ts : List (Int × Int)),
      s.didFirstFullRefresh = true →
      (runTicks codec junk fsOk st W H s ts).1.didFirstFullRefresh = true) := by
  refine ⟨rfl, ?_, ?_, ?_⟩
  · intro codec junk fsOk st W H s hour minute a ha
    refine ⟨loopStep_paint_refresh codec junk fsOk st W H s hour minute a ha, ?_⟩
    by_cases hm : minute = s.lastRenderedMinute
    · rw [loopStep_same_minute codec junk fsOk st W H s hour minute hm] at ha
      simp at ha
    · obtain ⟨a2, ha2⟩ := loopStep_new_minute codec junk fsOk st W H s hour minute hm
      rw [ha2]
  · intro codec junk fsOk st W H s hour minute ha
    by_cases hm : minute = s.lastRenderedMinute
    · rw [loopStep_same_minute codec junk fsOk st W H s hour minute hm]
    · obtain ⟨a2, ha2⟩ := loopStep_new_minute codec junk fsOk st W H s hour minute hm
      rw [ha2] at ha
      simp at ha
  · intro codec junk fsOk st W H s ts
    induction ts generalizing s with
    | nil => intro hs; simpa [runTicks] using hs
    | cons p rest ih =>
      intro hs
      obtain ⟨h, m⟩ := p
      have hmono := loopStep_primed_mono codec junk fsOk st W H s h m hs
      rw [runTicks]
      cases hstep : loopStep codec junk fsOk st W H s h m with
      | mk s2 oa =>
        rw [hstep] at hmono
        cases oa with
        | none => simpa using ih s2 hmono
        | some a => simpa using ih s2 hmono

/-- Witness for primed_refresh_policy: a concrete painting tick from the
boot state sets the primed flag, and a run from a primed state stays
primed. -/
theorem primed_refresh_policy_witness :
    (loopStep sampleCodec [] false stAllEmpty 800 480 initState 3 16).1.didFirstFullRefresh
        = true ∧
    (runTicks sampleCodec [] false stAllEmpty 800 480 ⟨-1, true⟩
        [(3, 16), (3, 17)]).1.didFirstFullRefresh = true :=
  ⟨(primed_refresh_policy.2.1 sampleCodec [] false stAllEmpty 800 480 initState 3 16
      ⟨.fullWindow, .notReady⟩ (by decide)).2,
    primed_refresh_policy.2.2.2 sampleCodec [] false stAllEmpty 800 480 ⟨-1, true⟩
      [(3, 16), (3, 17)] rfl⟩

end VerseOClock

namespace VerseOClock

/-- C2: per-lookup failures are isolated.  When the filesystem is ready
and the whole resolution of a fresh minute produces no verse (which
includes every CorruptEntry, CorruptText or DecodeFailure exit of the
lookups), the single render of that minute shows the no-verse message and
the loop state advances exactly as on success: the post-state is
(minute, primed) whatever store, codec or lookup outcome produced the
render, so the failure is never recorded, the failed lookup is never
retried, and no later minute resolution is affected. -/
theorem lookup_failure_isolated (codec : List UInt8 → Option (List Char))
    (junk : List Char) (st : Store) (W H : Nat) (s : ClockState)
    (hour minute : Int)
    (hm : minute ≠ s.lastRenderedMinute)
    (hfail : resolveVerse codec junk st hour minute = none) :
    loopStep codec junk true st W H s hour minute =
      (⟨minute, true⟩,
        some ⟨if s.didFirstFullRefresh then RefreshReq.windowRect 0 0 W H
          else RefreshReq.fullWindow, ZoneB.noPassage⟩) ∧
    (∀ (codec2 : List UInt8 → Option (List Char)) (junk2 : List Char) (st2 : Store),
      (loopStep codec2 junk2 true st2 W H s hour minute).1 = ⟨minute, true⟩) := by
  constructor
  · unfold loopStep
    rw [if_neg hm]
    simp only [if_pos rfl, hfail]
    simp [renderHomeScreen]
  · intro codec2 junk2 st2
    obtain ⟨a, ha⟩ := loopStep_new_minute codec2 junk2 true st2 W H s hour minute hm
    rw [ha]

/-- Witness for lookup_failure_isolated: the truncated store makes the
4:30 resolution fail with a CorruptText exit, the render shows the
no-verse message, and the state advances as on success. -/
theorem lookup_failure_isolated_witness :
    loopStep sampleCodec [] true stTruncated 800 480 initState 4 30 =
      (⟨30, true⟩, some ⟨RefreshReq.fullWindow, ZoneB.noPassage⟩) ∧
    (loopStep sampleCodec [] true stAllEmpty 800 480 initState 4 30).1 =
      ⟨30, true⟩ := by
  have h := lookup_failure_isolated sampleCodec [] stTruncated 800 480 initState
    4 30 (by decide) (by decide)
  exact ⟨h.1.trans (by decide), h.2 sampleCodec [] stAllEmpty⟩

end VerseOClock

namespace VerseOClock

/-- Witness for slot_bounds_safety: a wildly out-of-range time still maps
into [0,1357), and an out-of-range slot value is rejected by the lookup
range guard. -/
theorem slot_bounds_safety_witness :
    (0 ≤ slotIndexFromTime (-5) 999 ∧ slotIndexFromTime (-5) 999 < 1357) ∧
    loadVerse sampleCodec [] stAllEmpty 2000 = .err .badSlot :=
  ⟨slot_bounds_safety.1 (-5) 999,
    slot_bounds_safety.2 sampleCodec [] stAllEmpty 2000 (by decide)⟩

end VerseOClock
